/-
Verification of the call-graph editor's symbol handling, parameter-style
detection, graph construction and method-library invariants.

The definitions below are shallow embeddings of the TypeScript sources:
  * `normalizeSymbolName`            — src/services/methodLibrary.ts
  * `findSymbol` / `navigateOutcome` — src/callGraphEditorReactFlow.ts
  * `splitParams`, `detectParamStyle`, `looksLikeType`,
    `extractTypeFromSingleParam`, `extractTypesFromParams`
                                     — src/callGraphEditor.ts
  * `processCallers` / `processCallees` / `convertToGraphData` /
    `generateFromCodePosition`       — src/callGraphEditor.ts
  * `getCallHierarchy`               — the LSP call-hierarchy provider
  * `MethodLibrary.add/remove/clear` — src/services/methodLibrary.ts

Strings are modelled by Lean `String`/`List Char`; JavaScript's `trim`,
`startsWith`, `endsWith` and the specific regular expressions used by the
sources are modelled by explicit character scans.  External asynchronous
services (document-symbol provider, hover provider, incoming/outgoing call
queries) are modelled as explicit inputs.  The md5-based node id is
modelled by the string that the source feeds to the hash
(`relativePath:line:character:name`), i.e. the hash is assumed injective.
-/
import Mathlib

namespace CallGraphEditor

/-- Left-biased choice on `Option`, modelling an early `return` cascade. -/
def firstSome {α : Type} : Option α → Option α → Option α
  | some a, _ => some a
  | none, b => b

/-- Model of the JavaScript `\w` character class (`[A-Za-z0-9_]`). -/
def isWordChar (c : Char) : Bool :=
  c.isAlpha || c.isDigit || c = '_'

/-- Trim whitespace from both ends of a character list (JS `String.trim`). -/
def trimChars (cs : List Char) : List Char :=
  ((cs.dropWhile Char.isWhitespace).reverse.dropWhile Char.isWhitespace).reverse

/-- JS `String.trim` on a Lean string. -/
def jsTrim (s : String) : String :=
  String.mk (trimChars s.toList)

/-- JS `String.prototype.startsWith`. -/
def jsStartsWith (s pat : String) : Bool :=
  pat.toList.isPrefixOf s.toList

/-- JS `String.prototype.endsWith`. -/
def jsEndsWith (s pat : String) : Bool :=
  pat.toList.isSuffixOf s.toList

/-! ## `normalizeSymbolName` (src/services/methodLibrary.ts)

The source matches `rawName` against
`/^([^(]+)\(([^)]*)\)\s*(?::\s*.*)?$/` and on success returns the trimmed
first group as `bareName` and `"(" ++ trimmed second group ++ ")"` as
`signature`; otherwise it returns `rawName` unchanged with
`rawDetail || undefined` as the signature.  Note that in JavaScript `.`
does not match a newline and `$` (without the `m` flag) only matches the
end of the input, so the optional colon suffix may not contain a newline.
-/

structure NormalizedName where
  bareName : String
  signature : Option String
deriving Repr, DecidableEq

/-- `rawDetail || undefined`: an empty or absent detail becomes `none`. -/
def detailOrNone (rawDetail : Option String) : Option String :=
  match rawDetail with
  | some d => if d = "" then none else some d
  | none => none

/-- Does the tail after the closing parenthesis satisfy
`\s*(?::\s*.*)?$` (JS semantics: `.` excludes newlines)? -/
def suffixOk (tail : List Char) : Bool :=
  match tail.dropWhile Char.isWhitespace with
  | [] => true
  | ':' :: r2 => !(r2.contains '\n')
  | _ => false

/-- Embedding of `normalizeSymbolName(rawName, rawDetail?)`. -/
def normalizeSymbolName (rawName : String) (rawDetail : Option String) :
    NormalizedName :=
  let cs := rawName.toList
  let pre := cs.takeWhile (fun c => c ≠ '(')
  let fallback : NormalizedName := ⟨rawName, detailOrNone rawDetail⟩
  match cs.dropWhile (fun c => c ≠ '(') with
  | '(' :: afterOpen =>
    if pre.isEmpty then fallback
    else
      let inner := afterOpen.takeWhile (fun c => c ≠ ')')
      match afterOpen.dropWhile (fun c => c ≠ ')') with
      | ')' :: afterClose =>
        if suffixOk afterClose then
          ⟨String.mk (trimChars pre),
           some ("(" ++ String.mk (trimChars inner) ++ ")")⟩
        else fallback
      | _ => fallback
  | _ => fallback

/-! ## The symbol relocator (src/callGraphEditorReactFlow.ts)

`DocumentSymbol` keeps the fields the relocator reads: the display name,
the start of the selection range, and the children. -/

structure Pos where
  line : Nat
  character : Nat
deriving Repr, DecidableEq

/- `DocumentSymbol` and its child list are a mutual inductive pair (rather
than a `List` nest) so that the relocation functions are structurally
recursive and compute by reduction. -/
mutual

inductive DocumentSymbol where
  | node (name : String) (selStart : Pos) (children : DocumentSymbolList)
deriving Repr

inductive DocumentSymbolList where
  | nil
  | cons (head : DocumentSymbol) (tail : DocumentSymbolList)
deriving Repr

end

def DocumentSymbol.name : DocumentSymbol → String
  | .node n _ _ => n

def DocumentSymbol.selStart : DocumentSymbol → Pos
  | .node _ p _ => p

def DocumentSymbol.children : DocumentSymbol → DocumentSymbolList
  | .node _ _ ch => ch

/-- `Array.prototype.find` on a symbol list. -/
def DocumentSymbolList.find? (p : DocumentSymbol → Bool) :
    DocumentSymbolList → Option DocumentSymbol
  | .nil => none
  | .cons s rest => if p s then some s else DocumentSymbolList.find? p rest

def DocumentSymbolList.append :
    DocumentSymbolList → DocumentSymbolList → DocumentSymbolList
  | .nil, l2 => l2
  | .cons s rest, l2 => .cons s (DocumentSymbolList.append rest l2)

instance : Append DocumentSymbolList := ⟨DocumentSymbolList.append⟩

/-- Build a symbol list from a Lean list literal. -/
def DocumentSymbolList.ofList : List DocumentSymbol → DocumentSymbolList
  | [] => .nil
  | s :: rest => .cons s (DocumentSymbolList.ofList rest)

/-- Search inside a matched container: exact child-name match, then
bare-name match, then selection-line match — first hit wins. -/
def containerChildSearch (children : DocumentSymbolList) (name : String)
    (targetBare : String) (line : Option Nat) : Option DocumentSymbol :=
  firstSome (children.find? (fun c => c.name == name))
    (firstSome
      (children.find? (fun c =>
        (normalizeSymbolName c.name none).bareName == targetBare))
      (match line with
       | some l => children.find? (fun c => c.selStart.line == l)
       | none => none))

mutual

/-- The `for (const symbol of symbols)` loop of `findSymbol`, without the
depth-0 global line fallback. -/
def findSymbolCore : DocumentSymbolList → String → Option String →
    Option Nat → Option DocumentSymbol
  | .nil, _, _, _ => none
  | .cons s rest, name, containerName, line =>
    firstSome (findSymbolStep s name containerName line)
      (findSymbolCore rest name containerName line)

/-- One iteration of the `findSymbol` loop for a single symbol. -/
def findSymbolStep : DocumentSymbol → String → Option String → Option Nat →
    Option DocumentSymbol
  | .node sname ssel schildren, name, containerName, line =>
    let targetBare := (normalizeSymbolName name none).bareName
    let symbolBare := (normalizeSymbolName sname none).bareName
    let containerPart : Option DocumentSymbol :=
      match containerName with
      | none => none
      | some c =>
        let qualifiedNames : List String :=
          [c ++ "." ++ name, c ++ ":" ++ name,
           c ++ "." ++ targetBare, c ++ ":" ++ targetBare]
        let suffixes : List String :=
          ["." ++ name, ":" ++ name, "." ++ targetBare, ":" ++ targetBare]
        firstSome
          (if sname == c then
            containerChildSearch schildren name targetBare line
           else none)
          (firstSome
            (if qualifiedNames.contains sname then
              some (.node sname ssel schildren) else none)
            (firstSome
              (if qualifiedNames.contains symbolBare && symbolBare != sname
               then some (.node sname ssel schildren) else none)
              (if suffixes.any (fun suf =>
                   jsEndsWith sname suf || jsEndsWith symbolBare suf) then
                some (.node sname ssel schildren) else none)))
    firstSome containerPart
      (firstSome
        (if sname == name then some (.node sname ssel schildren) else none)
        (firstSome
          (if symbolBare == targetBare && symbolBare != sname then
            some (.node sname ssel schildren) else none)
          (findSymbolCore schildren name containerName line)))

end

mutual

/-- `findSymbolByLine`: depth-first search for a symbol whose selection
range starts exactly at `line`. -/
def findSymbolByLine : DocumentSymbolList → Nat → Option DocumentSymbol
  | .nil, _ => none
  | .cons s rest, l =>
    firstSome (findSymbolByLineOne s l) (findSymbolByLine rest l)

def findSymbolByLineOne : DocumentSymbol → Nat → Option DocumentSymbol
  | .node n sel ch, l =>
    if sel.line == l then some (.node n sel ch) else findSymbolByLine ch l

end

/-- Embedding of `findSymbol(symbols, name, containerName?, line?)`:
the loop, then (at depth 0 only) the global line-number fallback.  A
JavaScript-falsy container name (absent or empty) disables the container
strategies. -/
def findSymbol (symbols : DocumentSymbolList) (name : String)
    (containerName : Option String) (line : Option Nat) :
    Option DocumentSymbol :=
  let c : Option String :=
    match containerName with
    | some s => if s == "" then none else some s
    | none => none
  firstSome (findSymbolCore symbols name c line)
    (match line with
     | some l => findSymbolByLine symbols l
     | none => none)

/-- Outcome of the navigation decision logic in `navigateToCode` after the
target document has been opened.  `symbols? = none` models the
document-symbol provider producing no tree at all. -/
inductive NavOutcome where
  | lspMatch (target : DocumentSymbol)
  | lineFallback (line : Nat)
  | broken
deriving Repr

/-- The symbol the LSP-based relocation produces: `findSymbol` when the
provider returned a tree, nothing otherwise. -/
def relocatedSymbol (symbols? : Option DocumentSymbolList) (name : String)
    (containerName : Option String) (line : Option Nat) :
    Option DocumentSymbol :=
  match symbols? with
  | some syms => findSymbol syms name containerName line
  | none => none

/-- Embedding of the relocation/fallback decision of `navigateToCode`:
if a symbol tree exists and `findSymbol` hits, reveal the match; otherwise
fall back to the raw stored line when present; otherwise report the symbol
as broken. -/
def navigateOutcome (symbols? : Option DocumentSymbolList) (name : String)
    (containerName : Option String) (line : Option Nat) : NavOutcome :=
  match relocatedSymbol symbols? name containerName line with
  | some t => .lspMatch t
  | none =>
    match line with
    | some l => .lineFallback l
    | none => .broken

/-! ## Parameter parsing (src/callGraphEditor.ts)

`splitParams` splits a parameter string on commas at bracket depth zero,
tracking `<`/`>`, `[`/`]`, `{`/`}` pairs. -/

def isOpenBracket (c : Char) : Bool := c = '<' || c = '[' || c = '{'

def isCloseBracket (c : Char) : Bool := c = '>' || c = ']' || c = '}'

/-- The character loop of `splitParams`: `current` is the accumulated
segment, `depth` the current bracket depth. -/
def splitParamsGo : List Char → List Char → Int → List String
  | [], current, _ =>
    if (trimChars current).isEmpty then [] else [String.mk current]
  | c :: cs, current, depth =>
    if isOpenBracket c then splitParamsGo cs (current ++ [c]) (depth + 1)
    else if isCloseBracket c then splitParamsGo cs (current ++ [c]) (depth - 1)
    else if c == ',' && depth == 0 then
      String.mk current :: splitParamsGo cs [] depth
    else splitParamsGo cs (current ++ [c]) depth

/-- Embedding of `splitParams(paramsStr)`. -/
def splitParams (paramsStr : String) : List String :=
  splitParamsGo paramsStr.toList [] 0

/-- Bracket-depth contribution of one character. -/
def bracketDelta (c : Char) : Int :=
  if isOpenBracket c then 1 else if isCloseBracket c then -1 else 0

/-- Bracket depth accumulated over a character list. -/
def bracketDepth (cs : List Char) : Int :=
  (cs.map bracketDelta).sum

/-- Model of the JS test `/\w\s*\??\s*:/` after a matched word character:
skip whitespace, optionally take one `?`, skip whitespace, require `:`. -/
def colonAfterWord (cs : List Char) : Bool :=
  let cs1 := cs.dropWhile Char.isWhitespace
  let cs2 :=
    match cs1 with
    | '?' :: rest => rest.dropWhile Char.isWhitespace
    | _ => cs1
  match cs2 with
  | ':' :: _ => true
  | _ => false

/-- Model of `/\w\s*\??\s*:/.test(s)`: an unanchored search. -/
def testColonRegex : List Char → Bool
  | [] => false
  | c :: rest => (isWordChar c && colonAfterWord rest) || testColonRegex rest

/-- Model of `s.replace(/\s*=\s*.*$/, '')`: remove everything from the
first `=` whose tail is whitespace followed by a newline-free run, along
with the whitespace immediately preceding that `=`.  The accumulator holds
the scanned prefix in reverse. -/
def stripDefaultGo : List Char → List Char → List Char
  | [], acc => acc.reverse
  | c :: t, acc =>
    if c == '=' && !((t.dropWhile Char.isWhitespace).contains '\n') then
      (acc.dropWhile Char.isWhitespace).reverse
    else stripDefaultGo t (c :: acc)

/-- `s.replace(/\s*=\s*.*$/, '')` on a character list. -/
def stripDefaultClause (cs : List Char) : List Char :=
  stripDefaultGo cs []

/-- `s.split(/\s+/).filter(t => t)`: whitespace-separated pieces, empties
dropped.  The accumulator holds the current piece in reverse. -/
def splitWsGo : List Char → List Char → List String
  | [], current =>
    if current.isEmpty then [] else [String.mk current.reverse]
  | c :: t, current =>
    if c.isWhitespace then
      if current.isEmpty then splitWsGo t []
      else String.mk current.reverse :: splitWsGo t []
    else splitWsGo t (c :: current)

/-- The fixed keyword set of `looksLikeType`. -/
def typeKeywords : List String :=
  ["int", "float", "double", "long", "short", "byte", "char", "bool",
   "boolean", "string", "void", "unsigned", "signed", "const",
   "String", "Object", "List", "Map", "Set", "Array", "Dictionary",
   "Int32", "Int64", "Single", "Double", "Boolean", "Byte",
   "ArrayList", "HashMap", "HashSet", "LinkedList", "TreeMap"]

/-- Embedding of `looksLikeType(token)`: keyword set, leading uppercase
letter, `[]` suffix, or `*`/`&` suffix. -/
def looksLikeType (token : String) : Bool :=
  typeKeywords.contains token ||
  (match token.toList with
   | c :: _ => c.isUpper
   | [] => false) ||
  jsEndsWith token "[]" ||
  token.toList.getLast? == some '*' ||
  token.toList.getLast? == some '&'

inductive ParamStyle where
  | colon
  | typeBefore
  | typeAfterGo
  | php
  | dynamic
deriving Repr, DecidableEq

/-- Embedding of `detectParamStyle(params)`: the style decided by the
first token that yields a signal; skipped tokens are blank tokens, tokens
with a `*`/`...` prefix, and the exact tokens `self`/`cls`/`this`. -/
def detectParamStyle : List String → ParamStyle
  | [] => .dynamic
  | p :: rest =>
    let trimmed := jsTrim p
    if trimmed == "" then detectParamStyle rest
    else if jsStartsWith trimmed "*" || jsStartsWith trimmed "..." then
      detectParamStyle rest
    else if trimmed == "self" || trimmed == "cls" || trimmed == "this" then
      detectParamStyle rest
    else if trimmed.toList.contains '$' then .php
    else if testColonRegex trimmed.toList then .colon
    else
      match splitWsGo (stripDefaultClause trimmed.toList) [] with
      | t0 :: _ :: _ =>
        if looksLikeType t0 then .typeBefore else .typeAfterGo
      | _ => detectParamStyle rest

/-- Signal yielded by one token, following the specification's wording:
`none` when the token is skipped or yields no signal. -/
def tokenStyleSignal (p : String) : Option ParamStyle :=
  let trimmed := jsTrim p
  if trimmed == "" then none
  else if jsStartsWith trimmed "*" || jsStartsWith trimmed "..." then none
  else if trimmed == "self" || trimmed == "cls" || trimmed == "this" then none
  else if trimmed.toList.contains '$' then some .php
  else if testColonRegex trimmed.toList then some .colon
  else
    match splitWsGo (stripDefaultClause trimmed.toList) [] with
    | t0 :: _ :: _ =>
      some (if looksLikeType t0 then .typeBefore else .typeAfterGo)
    | _ => none

/-- Specification-side style detection: the first token signal wins, and
the default is `dynamic`. -/
def detectParamStyleSpec (params : List String) : ParamStyle :=
  match params.findSome? tokenStyleSignal with
  | some st => st
  | none => .dynamic

/-- Model of `/^(\w+)\s*=/` and `/^(\w+)/` in `extractParamName`: both
capture the leading `\w+` run, so the result is that run when it is
nonempty and the whole parameter otherwise. -/
def extractParamName (param : String) : String :=
  match param.toList.takeWhile isWordChar with
  | [] => param
  | w => String.mk w

/-- Model of `\w+\s*:\s*(.+)` applied after a `*`, `**` or `...` marker,
returning the trimmed captured group.  (`.` excludes newlines; exact for
arguments without trailing whitespace, which is what the call site passes
after `param.trim()`.) -/
def starColonCapture (cs : List Char) : Option String :=
  if (cs.takeWhile isWordChar).isEmpty then none
  else
    match (cs.dropWhile isWordChar).dropWhile Char.isWhitespace with
    | ':' :: t =>
      match t.dropWhile Char.isWhitespace with
      | [] => none
      | u => some (String.mk (trimChars (u.takeWhile (fun c => c ≠ '\n'))))
    | _ => none

/-- Model of `/^\w[\w?]*\s*\??\s*:\s*(.+)/` in the colon branch,
returning the trimmed captured group. -/
def colonTypeCapture (cs : List Char) : Option String :=
  match cs with
  | c :: rest =>
    if isWordChar c then
      let rest1 := rest.dropWhile (fun x => isWordChar x || x = '?')
      let rest2 := rest1.dropWhile Char.isWhitespace
      let rest3 :=
        match rest2 with
        | '?' :: r => r.dropWhile Char.isWhitespace
        | _ => rest2
      match rest3 with
      | ':' :: t =>
        match t.dropWhile Char.isWhitespace with
        | [] => none
        | u => some (String.mk (trimChars (u.takeWhile (fun x => x ≠ '\n'))))
      | _ => none
    else none
  | [] => none

/-- Model of `/^(\??\w[\w\\]*)\s+\$/` in the PHP branch: the captured
type, when the parameter is `Type $name` or `?Type $name`. -/
def phpTypeCapture (cs : List Char) : Option String :=
  let run (body : List Char) (group0 : List Char) : Option String :=
    match body with
    | c :: rest =>
      if isWordChar c then
        let w := rest.takeWhile (fun x => isWordChar x || x = '\\')
        let after := rest.dropWhile (fun x => isWordChar x || x = '\\')
        match after with
        | a :: _ =>
          if a.isWhitespace then
            match after.dropWhile Char.isWhitespace with
            | '$' :: _ => some (String.mk (group0 ++ c :: w))
            | _ => none
          else none
        | [] => none
      else none
    | [] => none
  match cs with
  | '?' :: rest => run rest ['?']
  | _ => run cs []

/-- Model of `/\$(\w+)/`: the word run after the first `$` that is
followed by at least one word character. -/
def phpNameCapture : List Char → Option String
  | [] => none
  | '$' :: rest =>
    match rest.takeWhile isWordChar with
    | [] => phpNameCapture rest
    | w => some (String.mk w)
  | _ :: rest => phpNameCapture rest

/-- Substring test (JS `String.includes`). -/
def containsSeq : List Char → List Char → Bool
  | [], pat => pat.isEmpty
  | c :: t, pat => pat.isPrefixOf (c :: t) || containsSeq t pat

/-- `param.includes('?:') || (param.includes('?') && style === 'colon')`. -/
def isOptionalParam (param : String) (style : ParamStyle) : Bool :=
  containsSeq param.toList ['?', ':'] ||
  (param.toList.contains '?' && style == .colon)

/-- Embedding of `extractTypeFromSingleParam(param, style)`. -/
def extractTypeFromSingleParam (param : String) (style : ParamStyle) :
    String :=
  if param == "" then ""
  else if jsStartsWith param "**" then
    match starColonCapture (param.toList.drop 2) with
    | some ty => "**" ++ ty
    | none => param
  else if jsStartsWith param "*" then
    match starColonCapture (param.toList.drop 1) with
    | some ty => "*" ++ ty
    | none => param
  else if jsStartsWith param "..." then
    match starColonCapture (param.toList.drop 3) with
    | some ty => "..." ++ ty
    | none => param
  else if param == "self" || param == "cls" || param == "this" then ""
  else
    let isOpt := isOptionalParam param style
    match style with
    | .colon =>
      match colonTypeCapture param.toList with
      | some ty =>
        let ty2 :=
          if ty.toList.contains '=' then
            String.mk (trimChars (ty.toList.takeWhile (fun c => c ≠ '=')))
          else ty
        if isOpt then ty2 ++ "?" else ty2
      | none => extractParamName param
    | .typeBefore =>
      let cleanParam := trimChars (stripDefaultClause param.toList)
      match splitWsGo cleanParam [] with
      | t0 :: t1 :: rest =>
        String.intercalate " " ((t0 :: t1 :: rest).dropLast)
      | _ => param
    | .typeAfterGo =>
      match splitWsGo (trimChars param.toList) [] with
      | _ :: t1 :: rest => String.intercalate " " (t1 :: rest)
      | _ => param
    | .php =>
      match phpTypeCapture param.toList with
      | some ty => ty
      | none =>
        match phpNameCapture param.toList with
        | some nm => nm
        | none => param
    | .dynamic => extractParamName param

/-- The mapped-and-filtered type list built inside
`extractTypesFromParams`. -/
def extractedTypes (paramsStr : String) : List String :=
  let paramTokens := splitParams paramsStr
  let style := detectParamStyle paramTokens
  (paramTokens.map (fun p => extractTypeFromSingleParam (jsTrim p) style)).filter
    (fun t => t ≠ "")

/-- Embedding of `extractTypesFromParams(paramsStr)`. -/
def extractTypesFromParams (paramsStr : String) : String :=
  if jsTrim paramsStr == "" then "()"
  else "(" ++ String.intercalate ", " (extractedTypes paramsStr) ++ ")"

/-! ## Call-hierarchy acquisition (the LSP provider)

`CHItem` models `vscode.CallHierarchyItem` with the fields the provider
reads; `LspWorld` models the external `provideIncomingCalls` /
`provideOutgoingCalls` commands.  `itemKey` is `getNodeKey`:
`uri:line:column:name`. -/

structure CHItem where
  name : String
  uri : String
  rangeLine : Nat
  rangeChar : Nat
  detail : Option String
  selectionRange : Option Pos
  isMethod : Bool
deriving Repr, DecidableEq

structure LspWorld where
  incoming : CHItem → List CHItem
  outgoing : CHItem → List CHItem

def itemKey (i : CHItem) : String :=
  i.uri ++ ":" ++ toString i.rangeLine ++ ":" ++ toString i.rangeChar ++
    ":" ++ i.name

/- The call-hierarchy tree built by the provider.  `isMethod` models
`kind === vscode.SymbolKind.Method`.  The node and its child lists are a
mutual inductive pair so that the traversals below are structurally
recursive and compute by reduction. -/
mutual

inductive CallHierarchyNode where
  | mk (name : String) (uri : String) (rangeLine rangeChar : Nat)
       (detail : Option String) (selectionRange : Option Pos)
       (isMethod : Bool)
       (callers : CHNList)
       (callees : CHNList)
deriving Repr

inductive CHNList where
  | nil
  | cons (head : CallHierarchyNode) (tail : CHNList)
deriving Repr

end

def CallHierarchyNode.name : CallHierarchyNode → String
  | .mk n _ _ _ _ _ _ _ _ => n

def CallHierarchyNode.uri : CallHierarchyNode → String
  | .mk _ u _ _ _ _ _ _ _ => u

def CallHierarchyNode.rangeLine : CallHierarchyNode → Nat
  | .mk _ _ l _ _ _ _ _ _ => l

def CallHierarchyNode.rangeChar : CallHierarchyNode → Nat
  | .mk _ _ _ c _ _ _ _ _ => c

def CallHierarchyNode.detail : CallHierarchyNode → Option String
  | .mk _ _ _ _ d _ _ _ _ => d

def CallHierarchyNode.selectionRange : CallHierarchyNode → Option Pos
  | .mk _ _ _ _ _ s _ _ _ => s

def CallHierarchyNode.isMethod : CallHierarchyNode → Bool
  | .mk _ _ _ _ _ _ m _ _ => m

def CallHierarchyNode.callers : CallHierarchyNode → CHNList
  | .mk _ _ _ _ _ _ _ cs _ => cs

def CallHierarchyNode.callees : CallHierarchyNode → CHNList
  | .mk _ _ _ _ _ _ _ _ cs => cs

def CHNList.length : CHNList → Nat
  | .nil => 0
  | .cons _ rest => 1 + CHNList.length rest

/-- Build a call-hierarchy node list from a Lean list literal. -/
def CHNList.ofList : List CallHierarchyNode → CHNList
  | [] => .nil
  | n :: rest => .cons n (CHNList.ofList rest)

/-- The node the provider builds from an item, with the given caller and
callee lists. -/
def nodeOfItem (i : CHItem) (callers callees : CHNList) :
    CallHierarchyNode :=
  .mk i.name i.uri i.rangeLine i.rangeChar i.detail i.selectionRange
    i.isMethod callers callees

/-- The `for (const call of ...)` loop shared by `getIncomingCalls` and
`getOutgoingCalls` (they differ only in which child list the new node
carries), parameterized by the recursive expansion `sub` applied to each
newly visited item (`remainingDepth > 0` recursion, or no expansion at
depth 0). -/
def callsLoop (mkNode : CHItem → CHNList → CallHierarchyNode)
    (sub : CHItem → List String → CHNList × List String) :
    List CHItem → List String → CHNList × List String
  | [], visited => (.nil, visited)
  | item :: rest, visited =>
    let key := itemKey item
    if visited.contains key then callsLoop mkNode sub rest visited
    else
      let visited1 := visited ++ [key]
      let s := sub item visited1
      let tailResult := callsLoop mkNode sub rest s.2
      (.cons (mkNode item s.1) tailResult.1, tailResult.2)

/-- Embedding of `getIncomingCalls(item, remainingDepth)`: queries the
world, skips already-visited callers, and recurses while depth remains.
The provider's single mutable `visited` set is threaded through. -/
def getIncomingCalls (world : LspWorld) :
    Nat → CHItem → List String → CHNList × List String
  | 0, item, visited =>
    callsLoop (fun i sub1 => nodeOfItem i sub1 .nil)
      (fun _ v => (.nil, v)) (world.incoming item) visited
  | rd + 1, item, visited =>
    callsLoop (fun i sub1 => nodeOfItem i sub1 .nil)
      (fun it v => getIncomingCalls world rd it v)
      (world.incoming item) visited

/-- Embedding of `getOutgoingCalls(item, remainingDepth)`. -/
def getOutgoingCalls (world : LspWorld) :
    Nat → CHItem → List String → CHNList × List String
  | 0, item, visited =>
    callsLoop (fun i sub1 => nodeOfItem i .nil sub1)
      (fun _ v => (.nil, v)) (world.outgoing item) visited
  | rd + 1, item, visited =>
    callsLoop (fun i sub1 => nodeOfItem i .nil sub1)
      (fun it v => getOutgoingCalls world rd it v)
      (world.outgoing item) visited

/-- Embedding of `getCallHierarchy(document, position, depth)`.
`prepared` models the result of `vscode.prepareCallHierarchy`; the first
matching item is used, the root key is marked visited, then the incoming
pass runs before the outgoing pass over the same visited set. -/
def getCallHierarchy (world : LspWorld) (prepared : List CHItem)
    (depth : Nat) : Option CallHierarchyNode :=
  match prepared with
  | [] => none
  | rootItem :: _ =>
    let visited0 := [itemKey rootItem]
    if depth > 0 then
      let inc := getIncomingCalls world (depth - 1) rootItem visited0
      let out := getOutgoingCalls world (depth - 1) rootItem inc.2
      some (nodeOfItem rootItem inc.1 out.1)
    else some (nodeOfItem rootItem .nil .nil)

/-! ## The call-graph generator (src/callGraphEditor.ts)

`GenEnv` models the external services the generator consults while
building a node: `relativePath` is `WorkspacePathResolver.toWorkspaceRelative`
and `hoverSignature` is the signature extracted by `getSignatureFromHover`
(an asynchronous hover query).  `generateNodeId` models the md5 hash by
the exact string the source hashes, i.e. the hash is assumed
collision-free. -/

structure GenEnv where
  relativePath : String → String
  hoverSignature : String → Nat → Nat → Option String

structure NodeSymbol where
  name : String
  uri : String
  containerName : Option String
  line : Nat
  signature : Option String
deriving Repr, DecidableEq

/-- A generated graph node (`type` is the constant `'code'` and is
omitted). -/
structure GraphNode where
  id : String
  label : String
  symbol : NodeSymbol
deriving Repr, DecidableEq

/-- An edge `{from, to}` (`from` is a Lean keyword, hence `fromId`). -/
structure GraphEdge where
  fromId : String
  toId : String
deriving Repr, DecidableEq

/-- `generateNodeId(item)`: the data string
`relativePath:line:character:name` fed to md5. -/
def generateNodeId (env : GenEnv) (item : CallHierarchyNode) : String :=
  env.relativePath item.uri ++ ":" ++ toString item.rangeLine ++ ":" ++
    toString item.rangeChar ++ ":" ++ item.name

/-- `x || undefined` on an optional string: empty becomes absent. -/
def orUndefined (x : Option String) : Option String :=
  match x with
  | some s => if s = "" then none else some s
  | none => none

/-- Embedding of `createNodeFromCallHierarchyItem(item, _, _)`. -/
def createNode (env : GenEnv) (item : CallHierarchyNode) : GraphNode :=
  let containerName : Option String :=
    if item.isMethod then item.detail else none
  let selStart : Pos :=
    match item.selectionRange with
    | some p => p
    | none => ⟨item.rangeLine, item.rangeChar⟩
  let normalized := normalizeSymbolName item.name none
  let hoverSig := env.hoverSignature item.uri selStart.line selStart.character
  let signature : Option String :=
    match hoverSig with
    | some s => if s = "" then normalized.signature else some s
    | none => normalized.signature
  { id := generateNodeId env item,
    label := normalized.bareName,
    symbol :=
      { name := normalized.bareName,
        uri := env.relativePath item.uri,
        containerName := orUndefined containerName,
        line := selStart.line,
        signature := orUndefined signature } }

/-- The generator's mutable state: `nodeMap` (a JS `Map`, modelled as an
insertion-ordered association list), `edges`, and `visitedNodes`. -/
structure GenState where
  nodeMap : List (String × GraphNode)
  edges : List GraphEdge
  visited : List String
deriving Repr, DecidableEq

/-- JS `Map.set`: replace in place if the key exists, else append. -/
def mapSet : List (String × GraphNode) → String → GraphNode →
    List (String × GraphNode)
  | [], k, v => [(k, v)]
  | (k', v') :: rest, k, v =>
    if k' == k then (k, v) :: rest else (k', v') :: mapSet rest k v

mutual

/-- Embedding of `processCallers(node, parentId, level)`: the loop over
`node.callers`. -/
def processCallers (env : GenEnv) : CallHierarchyNode → String → GenState →
    GenState
  | .mk _ _ _ _ _ _ _ callers _, parentId, st =>
    processCallersList env callers parentId st

def processCallersList (env : GenEnv) :
    CHNList → String → GenState → GenState
  | .nil, _, st => st
  | .cons caller rest, parentId, st =>
    let callerId := generateNodeId env caller
    let st' :=
      if st.visited.contains callerId then st
      else
        processCallers env caller callerId
          { visited := st.visited ++ [callerId],
            nodeMap := mapSet st.nodeMap callerId (createNode env caller),
            edges := st.edges ++ [⟨callerId, parentId⟩] }
    processCallersList env rest parentId st'

end

mutual

/-- Embedding of `processCallees(node, parentId, level)`. -/
def processCallees (env : GenEnv) : CallHierarchyNode → String → GenState →
    GenState
  | .mk _ _ _ _ _ _ _ _ callees, parentId, st =>
    processCalleesList env callees parentId st

def processCalleesList (env : GenEnv) :
    CHNList → String → GenState → GenState
  | .nil, _, st => st
  | .cons callee rest, parentId, st =>
    let calleeId := generateNodeId env callee
    let st' :=
      if st.visited.contains calleeId then st
      else
        processCallees env callee calleeId
          { visited := st.visited ++ [calleeId],
            nodeMap := mapSet st.nodeMap calleeId (createNode env callee),
            edges := st.edges ++ [⟨parentId, calleeId⟩] }
    processCalleesList env rest parentId st'

end

inductive Direction where
  | both
  | callers
  | callees
deriving Repr, DecidableEq

/-- Embedding of `convertToGraphData(hierarchy, direction)`: root node
into the map (not into `visited`), then the caller pass, then the callee
pass; returns the final state and `Array.from(nodeMap.values())`. -/
def convertToGraphData (env : GenEnv) (hierarchy : CallHierarchyNode)
    (direction : Direction) (st : GenState) : GenState × List GraphNode :=
  let rootNode := createNode env hierarchy
  let st1 : GenState := { st with nodeMap := mapSet st.nodeMap rootNode.id rootNode }
  let st2 :=
    if direction == .both || direction == .callers then
      processCallers env hierarchy rootNode.id st1
    else st1
  let st3 :=
    if direction == .both || direction == .callees then
      processCallees env hierarchy rootNode.id st2
    else st2
  (st3, st3.nodeMap.map Prod.snd)

inductive GenError where
  | workspaceNotOpened
  | unableToGetCallHierarchy
deriving Repr, DecidableEq

/-- The produced `CallGraphDocument`.  `titleArg` is the argument fed to
the localized `'Call graph for {0}'` title (`rootNode.label || rootNode.id`),
`none` when there is no root node. -/
structure CallGraphDoc where
  titleArg : Option String
  nodes : List GraphNode
  edges : List GraphEdge
deriving Repr, DecidableEq

/-- Embedding of `generateFromCodePosition`: workspace check, hierarchy
acquisition, state reset, conversion.  The pair threads the generator's
mutable state so that the state at an early `throw` is observable
(`applyLayout` assigns no coordinates and is semantically a no-op). -/
def generateFromCodePosition (env : GenEnv) (world : LspWorld)
    (workspace : Option String) (prepared : List CHItem) (depth : Nat)
    (direction : Direction) (st : GenState) :
    GenState × Except GenError CallGraphDoc :=
  match workspace with
  | none => (st, .error .workspaceNotOpened)
  | some _ =>
    match getCallHierarchy world prepared depth with
    | none => (st, .error .unableToGetCallHierarchy)
    | some hierarchy =>
      let reset : GenState := ⟨[], [], []⟩
      let result := convertToGraphData env hierarchy direction reset
      let titleArg :=
        match result.2 with
        | r :: _ => some (if r.label == "" then r.id else r.label)
        | [] => none
      (result.1, .ok ⟨titleArg, result.2, result.1.edges⟩)

/-! ## The method library (src/services/methodLibrary.ts)

The stored state is the `MethodItem[]` list kept in `workspaceState`.
`add` receives the generated `id` and timestamp as explicit arguments
(`Date.now()` / `Math.random()` are external). -/

structure MethodItem where
  id : String
  name : String
  uri : String
  containerName : Option String
  line : Nat
  signature : Option String
  addedAt : Nat
deriving Repr, DecidableEq

structure MethodData where
  name : String
  uri : String
  containerName : Option String
  line : Nat
  signature : Option String
deriving Repr, DecidableEq

/-- Embedding of `MethodLibrary.add(method)`: if an entry with the same
`uri` and `line` exists, return it and leave the list unchanged; else
append a freshly stamped item. -/
def libAdd (methods : List MethodItem) (m : MethodData) (freshId : String)
    (now : Nat) : MethodItem × List MethodItem :=
  match methods.find? (fun x => x.uri == m.uri && x.line == m.line) with
  | some existing => (existing, methods)
  | none =>
    let newMethod : MethodItem :=
      ⟨freshId, m.name, m.uri, m.containerName, m.line, m.signature, now⟩
    (newMethod, methods ++ [newMethod])

/-- Embedding of `MethodLibrary.remove(id)`: splice out the first entry
with the given id, if any. -/
def libRemove (methods : List MethodItem) (rid : String) :
    List MethodItem :=
  List.eraseP (fun x => x.id == rid) methods

/-- Embedding of `MethodLibrary.clear()`. -/
def libClear : List MethodItem := []

/-- States reachable from the initial empty library through `add`,
`remove` and `clear`. -/
inductive LibReachable : List MethodItem → Prop where
  | init : LibReachable []
  | add (st : List MethodItem) (m : MethodData) (freshId : String)
      (now : Nat) : LibReachable st → LibReachable (libAdd st m freshId now).2
  | remove (st : List MethodItem) (rid : String) :
      LibReachable st → LibReachable (libRemove st rid)
  | clear (st : List MethodItem) : LibReachable st → LibReachable libClear

/-- No two entries share the same `(uri, line)` pair. -/
def UriLineNodup (methods : List MethodItem) : Prop :=
  (methods.map (fun x => (x.uri, x.line))).Nodup

/-! ## Concrete scenarios used by the graph-construction claims -/

/-- An environment whose path resolver is the identity and whose hover
query yields nothing. -/
def idEnv : GenEnv := ⟨fun u => u, fun _ _ _ => none⟩

def emptyGenState : GenState := ⟨[], [], []⟩

/-- Item `A` of the two-function cycle `A ⇄ B`. -/
def cycleItemA : CHItem := ⟨"A", "file:///a.ts", 10, 0, none, none, false⟩

/-- Item `B` of the two-function cycle `A ⇄ B`. -/
def cycleItemB : CHItem := ⟨"B", "file:///a.ts", 20, 0, none, none, false⟩

/-- The external world of the cycle: `A` calls `B` and `B` calls `A`, so
each is the single caller and the single callee of the other. -/
def cycleWorld : LspWorld :=
  ⟨fun i => if i = cycleItemA then [cycleItemB]
            else if i = cycleItemB then [cycleItemA] else [],
   fun i => if i = cycleItemA then [cycleItemB]
            else if i = cycleItemB then [cycleItemA] else []⟩

/-- A call-hierarchy tree in which the item `C` appears twice as a
callee: once under `B` and once (already visited by then) under the
root `A`. -/
def dupCalleeC : CallHierarchyNode := .mk "C" "u" 3 0 none none false .nil .nil

def dupCalleeB : CallHierarchyNode :=
  .mk "B" "u" 2 0 none none false .nil (.cons dupCalleeC .nil)

def dupCalleeRoot : CallHierarchyNode :=
  .mk "A" "u" 1 0 none none false .nil
    (.cons dupCalleeB (.cons dupCalleeC .nil))

/-- The "optional colon-prefixed suffix, end of string" part of the
`normalizeSymbolName` pattern, as the specification words it: whitespace,
then either the end of the string or a colon followed by a (newline-free)
suffix. -/
def SuffixPattern (tail : List Char) : Prop :=
  ∃ ws rest, tail = ws ++ rest ∧ (∀ c ∈ ws, c.isWhitespace = true) ∧
    (rest = [] ∨ ∃ r2, rest = ':' :: r2 ∧ '\n' ∉ r2)

/-- `cs` decomposes as "prefix, parenthesized group, optional
colon-prefixed suffix, end of string" with the given parts. -/
def MethodPatternDecomp (cs pre inner tail : List Char) : Prop :=
  cs = pre ++ '(' :: (inner ++ ')' :: tail) ∧ pre ≠ [] ∧ '(' ∉ pre ∧
    ')' ∉ inner ∧ SuffixPattern tail

/-! ## Helper lemmas -/

theorem firstSome_some {α : Type} (a : α) (y : Option α) :
    firstSome (some a) y = some a := rfl

theorem firstSome_none {α : Type} (y : Option α) :
    firstSome (none : Option α) y = y := rfl

theorem firstSome_assoc {α : Type} (a b c : Option α) :
    firstSome (firstSome a b) c = firstSome a (firstSome b c) := by
  cases a <;> rfl

theorem findSymbolCore_append :
    ∀ (l1 l2 : DocumentSymbolList) (name : String) (c : Option String)
      (line : Option Nat),
      findSymbolCore (l1 ++ l2) name c line =
        firstSome (findSymbolCore l1 name c line)
          (findSymbolCore l2 name c line)
  | .nil, _, _, _, _ => rfl
  | .cons s rest, l2, name, c, line => by
    have ih := findSymbolCore_append rest l2 name c line
    show firstSome (findSymbolStep s name c line)
        (findSymbolCore (rest ++ l2) name c line) =
      firstSome
        (firstSome (findSymbolStep s name c line)
          (findSymbolCore rest name c line))
        (findSymbolCore l2 name c line)
    rw [ih, firstSome_assoc]

/-! ## C1: container-first search in `findSymbol` -/

/-- C1: when the relocator reaches a tree node whose name equals the
stored `containerName` (nothing earlier in the traversal matched), the
node's direct children are searched by exact name, then bare name, then
selection-line, and the first child so matched is returned. -/
theorem findSymbol_container_children_first
    (pre rest : DocumentSymbolList) (ssel : Pos)
    (schildren : DocumentSymbolList) (name cn : String)
    (line : Option Nat) (ch : DocumentSymbol)
    (hcn : cn ≠ "")
    (hpre : findSymbolCore pre name (some cn) line = none)
    (hfound : containerChildSearch schildren name
        (normalizeSymbolName name none).bareName line = some ch) :
    findSymbol (pre ++ .cons (DocumentSymbol.node cn ssel schildren) rest)
      name (some cn) line = some ch := by
  have hbeq : (cn == "") = false := by simpa using hcn
  unfold findSymbol
  simp only [hbeq, Bool.false_eq_true, if_false]
  rw [findSymbolCore_append, hpre, firstSome_none]
  simp only [findSymbolCore, findSymbolStep]
  rw [hfound]
  simp only [beq_self_eq_true, if_true, firstSome_some]

/-- Witness for C1: the spec's `Calculator`/`multiply` example, matched by
the exact-name strategy. -/
theorem findSymbol_container_children_first_witness :
    findSymbol
      (.cons
        (DocumentSymbol.node "Calculator" ⟨10, 0⟩
          (DocumentSymbolList.ofList
            [DocumentSymbol.node "add" ⟨22, 0⟩ .nil,
             DocumentSymbol.node "subtract" ⟨34, 0⟩ .nil,
             DocumentSymbol.node "multiply" ⟨40, 0⟩ .nil]))
        .nil)
      "multiply" (some "Calculator") (some 40)
      = some (DocumentSymbol.node "multiply" ⟨40, 0⟩ .nil) :=
  findSymbol_container_children_first .nil .nil ⟨10, 0⟩
    (DocumentSymbolList.ofList
      [DocumentSymbol.node "add" ⟨22, 0⟩ .nil,
       DocumentSymbol.node "subtract" ⟨34, 0⟩ .nil,
       DocumentSymbol.node "multiply" ⟨40, 0⟩ .nil])
    "multiply" "Calculator" (some 40)
    (DocumentSymbol.node "multiply" ⟨40, 0⟩ .nil) (by decide) rfl rfl

/-! ## C4: line-number fallback versus broken marking -/

/-- C4 counterexample: a symbol tree exists (`[other@L3]`) but every
relocation strategy misses the stored `{name: "foo", line: 5}`; the code
still uses the raw stored line instead of marking the node broken, contrary
to the claim that the raw line is used only when no tree exists at all. -/
theorem navigateOutcome_miss_uses_line_counterexample :
    navigateOutcome
        (some (.cons (DocumentSymbol.node "other" ⟨3, 0⟩ .nil) .nil)) "foo"
        none (some 5) = .lineFallback 5 ∧
    navigateOutcome
        (some (.cons (DocumentSymbol.node "other" ⟨3, 0⟩ .nil) .nil)) "foo"
        none (some 5) ≠ .broken :=
  ⟨rfl, fun h => NavOutcome.noConfusion h⟩

/-- C4 amended: the raw stored line is used exactly when relocation
produces no symbol (whether the provider returned no tree or the tree
missed) and a stored line is present; the broken status is reported
exactly when relocation produces no symbol and no stored line is
present. -/
theorem navigateOutcome_fallback_rule
    (symbols? : Option DocumentSymbolList) (name : String)
    (containerName : Option String) (line : Option Nat) :
    (∀ l, navigateOutcome symbols? name containerName line = .lineFallback l
      ↔ (relocatedSymbol symbols? name containerName line = none ∧
         line = some l)) ∧
    (navigateOutcome symbols? name containerName line = .broken
      ↔ (relocatedSymbol symbols? name containerName line = none ∧
         line = none)) := by
  cases hr : relocatedSymbol symbols? name containerName line with
  | some t => cases line <;> simp [navigateOutcome, hr]
  | none => cases line <;> simp [navigateOutcome, hr]

/-! ## C3: `normalizeSymbolName` -/

theorem takeWhile_stops (p : Char → Bool) :
    ∀ (l1 : List Char) (c : Char) (l2 : List Char),
      (∀ x ∈ l1, p x = true) → p c = false →
      (l1 ++ c :: l2).takeWhile p = l1
  | [], c, l2, _, hc => by simp [List.takeWhile_cons, hc]
  | x :: rest, c, l2, h1, hc => by
    have hx : p x = true := h1 x (by simp)
    simp only [List.cons_append, List.takeWhile_cons, hx, if_true]
    rw [takeWhile_stops p rest c l2 (fun y hy => h1 y (by simp [hy])) hc]

theorem dropWhile_stops (p : Char → Bool) :
    ∀ (l1 : List Char) (c : Char) (l2 : List Char),
      (∀ x ∈ l1, p x = true) → p c = false →
      (l1 ++ c :: l2).dropWhile p = c :: l2
  | [], c, l2, _, hc => by simp [List.dropWhile_cons, hc]
  | x :: rest, c, l2, h1, hc => by
    have hx : p x = true := h1 x (by simp)
    simp only [List.cons_append, List.dropWhile_cons, hx, if_true]
    exact dropWhile_stops p rest c l2 (fun y hy => h1 y (by simp [hy])) hc

theorem dropWhile_all_append (p : Char → Bool) :
    ∀ (l1 l2 : List Char), (∀ c ∈ l1, p c = true) →
      (l1 ++ l2).dropWhile p = l2.dropWhile p
  | [], l2, _ => rfl
  | x :: rest, l2, h1 => by
    have hx : p x = true := h1 x (by simp)
    simp only [List.cons_append, List.dropWhile_cons, hx, if_true]
    exact dropWhile_all_append p rest l2 (fun y hy => h1 y (by simp [hy]))

theorem suffixPattern_iff_suffixOk (tail : List Char) :
    SuffixPattern tail ↔ suffixOk tail = true := by
  constructor
  · rintro ⟨ws, rest, rfl, hws, hrest⟩
    unfold suffixOk
    rw [dropWhile_all_append Char.isWhitespace ws rest hws]
    rcases hrest with rfl | ⟨r2, rfl, hnl⟩
    · rfl
    · have hcolon : Char.isWhitespace ':' = false := by decide
      rw [List.dropWhile_cons]
      simp only [hcolon, if_false]
      simpa using hnl
  · intro h
    unfold suffixOk at h
    refine ⟨tail.takeWhile Char.isWhitespace, tail.dropWhile Char.isWhitespace,
      (List.takeWhile_append_dropWhile Char.isWhitespace tail).symm,
      fun c hc => List.mem_takeWhile_imp hc, ?_⟩
    split at h
    · exact Or.inl (by assumption)
    · next r2 heq =>
      refine Or.inr ⟨r2, heq, ?_⟩
      simp only [Bool.not_eq_true'] at h
      intro hmem
      simp [hmem] at h
    · exact absurd h (by simp)

/-- C3: `normalizeSymbolName` returns the trimmed prefix and the
parenthesized inner group (re-wrapped in parentheses, trimmed) exactly
when the raw name matches "prefix, parenthesized group, optional
colon-prefixed suffix, end of string"; otherwise it returns the raw name
unchanged and the (nonempty) raw detail as signature.  Includes the
spec's two examples. -/
theorem normalizeSymbolName_spec :
    (∀ (rawName : String) (rawDetail : Option String)
       (pre inner tail : List Char),
       MethodPatternDecomp rawName.toList pre inner tail →
       normalizeSymbolName rawName rawDetail =
         ⟨String.mk (trimChars pre),
          some ("(" ++ String.mk (trimChars inner) ++ ")")⟩) ∧
    (∀ (rawName : String) (rawDetail : Option String),
       (¬ ∃ pre inner tail, MethodPatternDecomp rawName.toList pre inner tail) →
       normalizeSymbolName rawName rawDetail =
         ⟨rawName, detailOrNone rawDetail⟩) ∧
    normalizeSymbolName "add" none = ⟨"add", none⟩ ∧
    normalizeSymbolName "Method(int, string) : void" none =
      ⟨"Method", some "(int, string)"⟩ := by
  refine ⟨?_, ?_, by decide, by decide⟩
  · rintro rawName rawDetail pre inner tail ⟨hcs, hpre, hnopen, hnoclose, hsuffix⟩
    have hopen : (fun c => decide (c ≠ '(')) '(' = false := by decide
    have hclose : (fun c => decide (c ≠ ')')) ')' = false := by decide
    have hallpre : ∀ x ∈ pre, (fun c => decide (c ≠ '(')) x = true := by
      intro x hx
      simp only [decide_eq_true_eq]
      intro hxq
      exact hnopen (hxq ▸ hx)
    have hallinner : ∀ x ∈ inner, (fun c => decide (c ≠ ')')) x = true := by
      intro x hx
      simp only [decide_eq_true_eq]
      intro hxq
      exact hnoclose (hxq ▸ hx)
    have htake : rawName.toList.takeWhile (fun c => decide (c ≠ '(')) = pre := by
      rw [hcs]
      exact takeWhile_stops _ pre '(' (inner ++ ')' :: tail) hallpre hopen
    have hdrop : rawName.toList.dropWhile (fun c => decide (c ≠ '(')) =
        '(' :: (inner ++ ')' :: tail) := by
      rw [hcs]
      exact dropWhile_stops _ pre '(' (inner ++ ')' :: tail) hallpre hopen
    have htake2 : (inner ++ ')' :: tail).takeWhile (fun c => decide (c ≠ ')')) =
        inner := takeWhile_stops _ inner ')' tail hallinner hclose
    have hdrop2 : (inner ++ ')' :: tail).dropWhile (fun c => decide (c ≠ ')')) =
        ')' :: tail := dropWhile_stops _ inner ')' tail hallinner hclose
    have hempty : pre.isEmpty = false := by
      cases pre with
      | nil => exact absurd rfl hpre
      | cons a l => rfl
    have hsOk : suffixOk tail = true := (suffixPattern_iff_suffixOk tail).mp hsuffix
    unfold normalizeSymbolName
    simp only [htake, hdrop, hempty, htake2, hdrop2, hsOk, Bool.false_eq_true,
      if_false, if_true]
  · intro rawName rawDetail hne
    unfold normalizeSymbolName
    dsimp only
    split
    case h_2 => rfl
    case h_1 afterOpen heq =>
      cases hempty : (rawName.toList.takeWhile (fun c => decide (c ≠ '('))).isEmpty with
      | true => simp only [hempty, if_true]
      | false =>
        simp only [hempty, Bool.false_eq_true, if_false]
        split
        case h_2 => rfl
        case h_1 afterClose heq2 =>
          cases hsOk : suffixOk afterClose with
          | false => simp only [hsOk, Bool.false_eq_true, if_false]
          | true =>
            exfalso
            apply hne
            refine ⟨rawName.toList.takeWhile (fun c => decide (c ≠ '(')),
              afterOpen.takeWhile (fun c => decide (c ≠ ')')), afterClose,
              ?_, ?_, ?_, ?_, (suffixPattern_iff_suffixOk afterClose).mpr hsOk⟩
            · conv_lhs => rw [← List.takeWhile_append_dropWhile
                (p := fun c => decide (c ≠ '(')) (l := rawName.toList)]
              rw [heq]
              congr 1
              conv_lhs => rw [← List.takeWhile_append_dropWhile
                (p := fun c => decide (c ≠ ')')) (l := afterOpen)]
              rw [heq2]
            · intro hnil
              rw [hnil] at hempty
              simp at hempty
            · intro hmem
              have := List.mem_takeWhile_imp hmem
              simp at this
            · intro hmem
              have := List.mem_takeWhile_imp hmem
              simp at this

/-- Witness for C3: the `Method(int, string) : void` example decomposes
with prefix `Method`, group `int, string` and suffix ` : void`. -/
theorem normalizeSymbolName_spec_witness :
    normalizeSymbolName "Method(int, string) : void" none =
      ⟨"Method", some "(int, string)"⟩ := by
  have h := normalizeSymbolName_spec.1 "Method(int, string) : void" none
    "Method".toList "int, string".toList " : void".toList
    ⟨by decide, by decide, by decide, by decide,
     ⟨[' '], ':' :: " void".toList, by decide, by decide,
      Or.inr ⟨" void".toList, rfl, by decide⟩⟩⟩
  exact h.trans (by decide)

/-! ## C2: parameter-style detection -/

theorem detectParamStyle_cons (p : String) (rest : List String) :
    detectParamStyle (p :: rest) =
      match tokenStyleSignal p with
      | some st => st
      | none => detectParamStyle rest := by
  conv_lhs => rw [detectParamStyle]
  unfold tokenStyleSignal
  dsimp only
  by_cases h1 : (jsTrim p == "") = true
  · simp only [h1, if_true]
  · simp only [h1, if_false, Bool.false_eq_true]
    by_cases h2 : (jsStartsWith (jsTrim p) "*" || jsStartsWith (jsTrim p) "...") = true
    · simp only [h2, if_true]
    · simp only [h2, if_false, Bool.false_eq_true]
      by_cases h3 : (jsTrim p == "self" || jsTrim p == "cls" ||
          jsTrim p == "this") = true
      · simp only [h3, if_true]
      · simp only [h3, if_false, Bool.false_eq_true]
        by_cases h4 : ((jsTrim p).toList.contains '$') = true
        · simp only [h4, if_true]
        · simp only [h4, if_false, Bool.false_eq_true]
          by_cases h5 : testColonRegex (jsTrim p).toList = true
          · simp only [h5, if_true]
          · simp only [h5, if_false, Bool.false_eq_true]
            rcases hts : splitWsGo (stripDefaultClause (jsTrim p).toList) []
              with _ | ⟨t0, _ | ⟨t1, ts⟩⟩ <;> simp only [hts]

/-- C2: `detectParamStyle` returns the style decided by the first token
that yields a signal — skipped tokens being blank tokens, `*`/`**`/`...`
prefixed tokens and the exact tokens `self`/`cls`/`this`; `php` on a `$`,
else `colon` on the identifier-`?`-colon pattern, else `type-before` /
`type-after-go` for two-piece tokens by the `looksLikeType` heuristic, and
`dynamic` when no token yields a signal — together with the spec's five
examples. -/
theorem detectParamStyle_first_signal :
    (∀ params, detectParamStyle params = detectParamStyleSpec params) ∧
    detectParamStyle ["a: number", "b: string"] = .colon ∧
    detectParamStyle ["int a", "String b"] = .typeBefore ∧
    detectParamStyle ["a int", "b string"] = .typeAfterGo ∧
    detectParamStyle ["int $a"] = .php ∧
    detectParamStyle ["a", "b"] = .dynamic := by
  refine ⟨?_, rfl, rfl, rfl, rfl, rfl⟩
  intro params
  induction params with
  | nil => rfl
  | cons p rest ih =>
    rw [detectParamStyle_cons]
    unfold detectParamStyleSpec
    rw [List.findSome?_cons]
    cases h : tokenStyleSignal p with
    | some st => simp [h]
    | none => simpa [h] using ih

/-! ## C7: `splitParams` splits only at depth-zero commas -/

theorem bracketDepth_nil : bracketDepth [] = 0 := rfl

theorem bracketDepth_cons (c : Char) (l : List Char) :
    bracketDepth (c :: l) = bracketDelta c + bracketDepth l := by
  simp [bracketDepth]

/-- If every comma in the remaining input sits at a nonzero accumulated
bracket depth, the `splitParams` loop performs no split at all. -/
theorem splitParamsGo_no_split :
    ∀ (cs current : List Char) (depth : Int),
      (∀ a b, cs = a ++ ',' :: b → depth + bracketDepth a ≠ 0) →
      splitParamsGo cs current depth =
        if (trimChars (current ++ cs)).isEmpty then []
        else [String.mk (current ++ cs)]
  | [], current, depth, _ => by simp [splitParamsGo]
  | c :: cs, current, depth, h => by
    have hstep : ∀ (d : Int), bracketDelta c = d →
        (∀ a b, cs = a ++ ',' :: b → (depth + d) + bracketDepth a ≠ 0) := by
      intro d hd a b hab hz
      refine h (c :: a) b (by rw [hab, List.cons_append]) ?_
      rw [bracketDepth_cons, hd]
      omega
    by_cases hop : isOpenBracket c = true
    · have hd : bracketDelta c = 1 := by simp [bracketDelta, hop]
      rw [show splitParamsGo (c :: cs) current depth =
            splitParamsGo cs (current ++ [c]) (depth + 1) by
          simp [splitParamsGo, hop],
        splitParamsGo_no_split cs (current ++ [c]) (depth + 1) (hstep 1 hd),
        List.append_assoc, List.singleton_append]
    · by_cases hcl : isCloseBracket c = true
      · have hd : bracketDelta c = -1 := by simp [bracketDelta, hop, hcl]
        rw [show splitParamsGo (c :: cs) current depth =
              splitParamsGo cs (current ++ [c]) (depth - 1) by
            simp [splitParamsGo, hop, hcl],
          splitParamsGo_no_split cs (current ++ [c]) (depth - 1)
            (by simpa using hstep (-1) hd),
          List.append_assoc, List.singleton_append]
      · have hd : bracketDelta c = 0 := by simp [bracketDelta, hop, hcl]
        have hnotsplit : (c == ',' && depth == 0) = false := by
          by_cases hc : (c == ',') = true
          · have hq : c = ',' := by simpa using hc
            have hdep : depth ≠ 0 := by
              have := h [] cs (by rw [hq]; rfl)
              simpa [bracketDepth] using this
            simp [hc, hdep]
          · simp [Bool.and_eq_true, hc]
        rw [show splitParamsGo (c :: cs) current depth =
              splitParamsGo cs (current ++ [c]) depth by
            simp [splitParamsGo, hop, hcl, hnotsplit],
          splitParamsGo_no_split cs (current ++ [c]) depth
            (by simpa using hstep 0 hd),
          List.append_assoc, List.singleton_append]

/-- If no comma of `a` sits at accumulated depth zero but the depth at
the end of `a` is zero, the `splitParams` loop splits exactly at the comma
following `a`: it emits the accumulated segment and restarts (at depth 0,
which is the depth at that comma) on the remainder. -/
theorem splitParamsGo_first_split :
    ∀ (a b current : List Char) (depth : Int),
      (∀ a1 b1, a = a1 ++ ',' :: b1 → depth + bracketDepth a1 ≠ 0) →
      depth + bracketDepth a = 0 →
      splitParamsGo (a ++ ',' :: b) current depth =
        String.mk (current ++ a) :: splitParamsGo b [] 0
  | [], b, current, depth, _, hdep => by
    have hdep0 : depth = 0 := by
      simpa [bracketDepth] using hdep
    subst hdep0
    simp [splitParamsGo, isOpenBracket, isCloseBracket]
  | c :: a, b, current, depth, h, hdep => by
    have hstep : ∀ (d : Int), bracketDelta c = d →
        (∀ a1 b1, a = a1 ++ ',' :: b1 → (depth + d) + bracketDepth a1 ≠ 0) := by
      intro d hd a1 b1 hab hz
      refine h (c :: a1) b1 (by rw [hab, List.cons_append]) ?_
      rw [bracketDepth_cons, hd]
      omega
    have hdep' : ∀ (d : Int), bracketDelta c = d →
        (depth + d) + bracketDepth a = 0 := by
      intro d hd
      rw [bracketDepth_cons, hd] at hdep
      omega
    by_cases hop : isOpenBracket c = true
    · have hd : bracketDelta c = 1 := by simp [bracketDelta, hop]
      rw [show splitParamsGo ((c :: a) ++ ',' :: b) current depth =
            splitParamsGo (a ++ ',' :: b) (current ++ [c]) (depth + 1) by
          simp [splitParamsGo, hop],
        splitParamsGo_first_split a b (current ++ [c]) (depth + 1)
          (hstep 1 hd) (hdep' 1 hd),
        List.append_assoc, List.singleton_append]
    · by_cases hcl : isCloseBracket c = true
      · have hd : bracketDelta c = -1 := by simp [bracketDelta, hop, hcl]
        rw [show splitParamsGo ((c :: a) ++ ',' :: b) current depth =
              splitParamsGo (a ++ ',' :: b) (current ++ [c]) (depth - 1) by
            simp [splitParamsGo, hop, hcl],
          splitParamsGo_first_split a b (current ++ [c]) (depth - 1)
            (by simpa using hstep (-1) hd) (by simpa using hdep' (-1) hd),
          List.append_assoc, List.singleton_append]
      · have hd : bracketDelta c = 0 := by simp [bracketDelta, hop, hcl]
        have hnotsplit : (c == ',' && depth == 0) = false := by
          by_cases hc : (c == ',') = true
          · have hq : c = ',' := by simpa using hc
            have hdep0 : depth ≠ 0 := by
              have := h [] a (by rw [hq]; rfl)
              simpa [bracketDepth] using this
            simp [hc, hdep0]
          · simp [Bool.and_eq_true, hc]
        rw [show splitParamsGo ((c :: a) ++ ',' :: b) current depth =
              splitParamsGo (a ++ ',' :: b) (current ++ [c]) depth by
            simp [splitParamsGo, hop, hcl, hnotsplit],
          splitParamsGo_first_split a b (current ++ [c]) depth
            (by simpa using hstep 0 hd) (by simpa using hdep' 0 hd),
          List.append_assoc, List.singleton_append]

/-- Bridge from the decidable, index-based "no top-level comma" condition
to the decomposition form used in the loop invariant. -/
theorem no_top_comma_of_indexed (cs : List Char)
    (h : ∀ i, (hi : i < cs.length) → cs.get ⟨i, hi⟩ = ',' →
      bracketDepth (cs.take i) ≠ 0) :
    ∀ a b, cs = a ++ ',' :: b → bracketDepth a ≠ 0 := by
  intro a b hab
  have hlen : a.length < cs.length := by subst hab; simp
  have hget : cs.get ⟨a.length, hlen⟩ = ',' := by
    subst hab
    simp [List.get_eq_getElem, List.getElem_append_right (Nat.le_refl a.length)]
  have htake : cs.take a.length = a := by
    subst hab; exact List.take_left a (',' :: b)
  have := h a.length hlen hget
  rwa [htake] at this

/-- C7: `splitParams` splits exactly at the commas at bracket depth zero
(depth tracked across `<>`/`[]`/`{}`).  Conjunct 1: a string whose commas
all sit at nonzero depth is never split.  Conjunct 2: when a prefix `a`
contains no depth-zero comma and ends at depth zero, the comma after it
is a split point: the result is `a` followed by the split of the
remainder.  The two conjuncts determine `splitParams` on every input —
in particular nested commas never cause a split — and conjunct 3 is the
spec's `Map<string, number>` example. -/
theorem splitParams_top_level_commas_only :
    (∀ s : String,
       (∀ i, (hi : i < s.toList.length) → s.toList.get ⟨i, hi⟩ = ',' →
         bracketDepth (s.toList.take i) ≠ 0) →
       splitParams s =
         if (trimChars s.toList).isEmpty then [] else [s]) ∧
    (∀ a b : List Char,
       (∀ i, (hi : i < a.length) → a.get ⟨i, hi⟩ = ',' →
         bracketDepth (a.take i) ≠ 0) →
       bracketDepth a = 0 →
       splitParams (String.mk (a ++ ',' :: b)) =
         String.mk a :: splitParams (String.mk b)) ∧
    splitParams "Map<string, number>, bool" =
      ["Map<string, number>", " bool"] := by
  refine ⟨?_, ?_, by decide⟩
  · intro s hidx
    unfold splitParams
    rw [splitParamsGo_no_split s.toList [] 0 ?_]
    · rfl
    · intro a b hab
      have := no_top_comma_of_indexed s.toList hidx a b hab
      simpa using this
  · intro a b hidx hdep
    unfold splitParams
    rw [show (String.mk (a ++ ',' :: b)).toList = a ++ ',' :: b from rfl]
    rw [splitParamsGo_first_split a b [] 0 ?_ (by simpa using hdep)]
    · rfl
    · intro a1 b1 hab
      have := no_top_comma_of_indexed a hidx a1 b1 hab
      simpa using this

/-- Witness for C7: both general conjuncts combine to compute the spec's
example — `Map<string, number>` has no depth-zero comma and ends at depth
zero, so the top-level comma splits, and the remainder ` bool` (no commas)
stays whole. -/
theorem splitParams_top_level_commas_only_witness :
    splitParams "Map<string, number>, bool" =
      ["Map<string, number>", " bool"] := by
  have h1 : splitParams "Map<string, number>, bool" =
      "Map<string, number>" :: splitParams " bool" :=
    splitParams_top_level_commas_only.2.1 "Map<string, number>".toList
      " bool".toList (by decide) (by decide)
  have h2 : splitParams " bool" = [" bool"] :=
    (splitParams_top_level_commas_only.1 " bool" (by decide)).trans (by decide)
  rw [h1, h2]

/-! ## C8: implicit-self tokens are dropped -/

theorem length_filter_map_add_countP (f : String → String) :
    ∀ (l : List String),
      ((l.map f).filter (fun t => t ≠ "")).length +
        l.countP (fun x => f x == "") = l.length
  | [] => rfl
  | x :: l => by
    have ih := length_filter_map_add_countP f l
    by_cases hx : f x = "" <;>
      simp [List.filter_cons, List.countP_cons, hx] at ih ⊢ <;>
      omega

/-- C8 counterexample: on `",a"` the token list is `["", "a"]` — no
`self`/`cls`/`this` token at all — yet the output list has one element,
not two: blank tokens are also dropped, so the output is not shorter by
exactly the number of implicit-self tokens. -/
theorem extractedTypes_blank_token_counterexample :
    (splitParams ",a").length = 2 ∧
    ((splitParams ",a").countP
      (fun p => jsTrim p == "self" || jsTrim p == "cls" ||
        jsTrim p == "this")) = 0 ∧
    (extractedTypes ",a").length = 1 ∧
    (extractedTypes ",a").length ≠
      (splitParams ",a").length -
        ((splitParams ",a").countP
          (fun p => jsTrim p == "self" || jsTrim p == "cls" ||
            jsTrim p == "this")) := by
  refine ⟨by decide, by decide, by decide, by decide⟩

/-- C8 amended: a parameter token that is exactly `self`, `cls` or `this`
contributes no element to the output of `extractTypesFromParams` under
every style, so the result list is shorter than the token list by *at
least* the number of such tokens (blank tokens and degenerate captures
may be dropped as well); the spec's example holds. -/
theorem extractTypesFromParams_drops_self :
    (∀ (param : String) (style : ParamStyle),
       param = "self" ∨ param = "cls" ∨ param = "this" →
       extractTypeFromSingleParam param style = "") ∧
    (∀ paramsStr : String,
       (extractedTypes paramsStr).length ≤
         (splitParams paramsStr).length -
           ((splitParams paramsStr).countP
             (fun p => jsTrim p == "self" || jsTrim p == "cls" ||
               jsTrim p == "this"))) ∧
    extractTypesFromParams "self, a, b" = "(a, b)" := by
  have hdrop : ∀ (param : String) (style : ParamStyle),
      param = "self" ∨ param = "cls" ∨ param = "this" →
      extractTypeFromSingleParam param style = "" := by
    rintro param style (rfl | rfl | rfl) <;> rfl
  refine ⟨hdrop, ?_, by decide⟩
  intro paramsStr
  set toks := splitParams paramsStr with htoks
  set style := detectParamStyle toks with hstyle
  have hlen := length_filter_map_add_countP
    (fun p => extractTypeFromSingleParam (jsTrim p) style) toks
  have hmono : toks.countP
      (fun p => jsTrim p == "self" || jsTrim p == "cls" ||
        jsTrim p == "this") ≤
      toks.countP
        (fun p => extractTypeFromSingleParam (jsTrim p) style == "") := by
    refine List.countP_mono_left ?_
    intro x _ hx
    have : jsTrim x = "self" ∨ jsTrim x = "cls" ∨ jsTrim x = "this" := by
      rcases Bool.or_eq_true_iff.mp hx with h | h
      · rcases Bool.or_eq_true_iff.mp h with h1 | h1
        · exact Or.inl (by simpa using h1)
        · exact Or.inr (Or.inl (by simpa using h1))
      · exact Or.inr (Or.inr (by simpa using h))
    simpa using hdrop (jsTrim x) style this
  have hext : (extractedTypes paramsStr).length =
      ((toks.map (fun p => extractTypeFromSingleParam (jsTrim p) style)).filter
        (fun t => t ≠ "")).length := by
    rw [extractedTypes]
  omega

/-! ## C9: failed hierarchy acquisition aborts with no partial graph -/

/-- C9: when the call-hierarchy acquisition yields nothing, generation
fails with the symbol-not-resolvable error, emits no nodes or edges, and
leaves the generator's state exactly as it was. -/
theorem generateFromCodePosition_no_hierarchy
    (env : GenEnv) (world : LspWorld) (w : String) (prepared : List CHItem)
    (depth : Nat) (direction : Direction) (st : GenState)
    (hnone : getCallHierarchy world prepared depth = none) :
    generateFromCodePosition env world (some w) prepared depth direction st =
      (st, .error .unableToGetCallHierarchy) := by
  unfold generateFromCodePosition
  rw [hnone]

/-- Witness for C9: `prepareCallHierarchy` returning no items. -/
theorem generateFromCodePosition_no_hierarchy_witness :
    generateFromCodePosition ⟨fun u => u, fun _ _ _ => none⟩
        ⟨fun _ => [], fun _ => []⟩ (some "ws") [] 2 .both
        ⟨[], [⟨"a", "b"⟩], ["k"]⟩ =
      (⟨[], [⟨"a", "b"⟩], ["k"]⟩, .error .unableToGetCallHierarchy) :=
  generateFromCodePosition_no_hierarchy ⟨fun u => u, fun _ _ _ => none⟩
    ⟨fun _ => [], fun _ => []⟩ "ws" [] 2 .both ⟨[], [⟨"a", "b"⟩], ["k"]⟩ rfl

/-! ## C10: the method library never stores two entries at one (uri, line) -/

/-- C10: every library state reachable through `add`, `remove` and `clear`
has pairwise-distinct `(uri, line)` pairs, and adding a method at an
already-present `(uri, line)` returns the existing entry (whose `uri` and
`line` match) and leaves the stored list unchanged. -/
theorem methodLibrary_unique_uri_line :
    (∀ st, LibReachable st → UriLineNodup st) ∧
    (∀ (st : List MethodItem) (m : MethodData) (freshId : String)
       (now : Nat),
       (∃ x ∈ st, x.uri = m.uri ∧ x.line = m.line) →
       (libAdd st m freshId now).2 = st ∧
       (libAdd st m freshId now).1 ∈ st ∧
       (libAdd st m freshId now).1.uri = m.uri ∧
       (libAdd st m freshId now).1.line = m.line) := by
  constructor
  · intro st hreach
    induction hreach with
    | init => exact List.nodup_nil
    | add st m freshId now _ ih =>
      unfold libAdd
      cases hf : st.find? (fun x => x.uri == m.uri && x.line == m.line) with
      | some existing => exact ih
      | none =>
        have hnotin : ∀ x ∈ st, ¬(x.uri = m.uri ∧ x.line = m.line) := by
          intro x hx
          have := List.find?_eq_none.mp hf x hx
          intro hc
          exact this (by simp [hc.1, hc.2])
        unfold UriLineNodup at ih ⊢
        dsimp only
        rw [List.map_append]
        rw [List.nodup_append]
        refine ⟨ih, List.nodup_singleton _, ?_⟩
        intro p hp hq
        simp only [List.map_cons, List.map_nil, List.mem_singleton] at hq
        rcases List.mem_map.mp hp with ⟨x, hx, rfl⟩
        have : x.uri = m.uri ∧ x.line = m.line := by
          simpa [Prod.ext_iff] using hq
        exact hnotin x hx this
    | remove st rid _ ih =>
      unfold UriLineNodup at ih ⊢
      exact ih.sublist (List.Sublist.map _ (List.eraseP_sublist st))
    | clear st _ => exact List.nodup_nil
  · intro st m freshId now ⟨x, hx, hxu, hxl⟩
    have hne : st.find? (fun y => y.uri == m.uri && y.line == m.line) ≠
        none := by
      intro hf
      exact absurd (by simp [hxu, hxl])
        (List.find?_eq_none.mp hf x hx)
    cases hf : st.find? (fun y => y.uri == m.uri && y.line == m.line) with
    | none => exact absurd hf hne
    | some y =>
      have hymem : y ∈ st := List.mem_of_find?_eq_some hf
      have hyp := List.find?_some hf
      simp only [Bool.and_eq_true, beq_iff_eq] at hyp
      unfold libAdd
      rw [hf]
      exact ⟨rfl, hymem, hyp.1, hyp.2⟩

/-- Witness for C10: a reachable one-entry state, and a duplicate add at
the same `(uri, line)` returning the existing entry unchanged. -/
theorem methodLibrary_unique_uri_line_witness :
    UriLineNodup (libAdd [] ⟨"m", "f.ts", none, 3, none⟩ "id1" 5).2 ∧
    (libAdd (libAdd [] ⟨"m", "f.ts", none, 3, none⟩ "id1" 5).2
      ⟨"m2", "f.ts", none, 3, none⟩ "id2" 9).2 =
      (libAdd [] ⟨"m", "f.ts", none, 3, none⟩ "id1" 5).2 :=
  ⟨methodLibrary_unique_uri_line.1 _
    (LibReachable.add [] ⟨"m", "f.ts", none, 3, none⟩ "id1" 5
      LibReachable.init),
   (methodLibrary_unique_uri_line.2
     (libAdd [] ⟨"m", "f.ts", none, 3, none⟩ "id1" 5).2
     ⟨"m2", "f.ts", none, 3, none⟩ "id2" 9
     ⟨⟨"id1", "m", "f.ts", none, 3, none, 5⟩, by decide, rfl, rfl⟩).1⟩

/-! ## C6: the cycle pipeline terminates but yields fewer edges -/

/-- C6 counterexample: running the full pipeline (default depth 2) on the
`A ⇄ B` cycle with direction `both` yields 2 nodes but only **1** edge
(`B → A`): the provider's shared visited set consumes `B` during the
incoming pass, so the outgoing pass finds it already visited and the
claimed second edge never appears. -/
theorem cycle_pipeline_single_edge_counterexample :
    (generateFromCodePosition idEnv cycleWorld (some "ws") [cycleItemA] 2
        .both emptyGenState).2.toOption.map
      (fun d => (d.nodes.length, d.edges.length)) = some (2, 1) ∧
    ¬ ((generateFromCodePosition idEnv cycleWorld (some "ws") [cycleItemA] 2
        .both emptyGenState).2.toOption.map
      (fun d => (d.nodes.length, d.edges.length)) = some (2, 2)) := by
  exact ⟨by decide, by decide⟩

/-- C6 amended: on the cycle `A ⇄ B` the pipeline terminates (all
traversals are fuel- and tree-bounded) and produces, at the default
depth 2: 2 nodes and 1 edge for directions `both` and `callers`, and
1 node and 0 edges for `callees`. -/
theorem cycle_pipeline_results :
    (generateFromCodePosition idEnv cycleWorld (some "ws") [cycleItemA] 2
        .both emptyGenState).2.toOption.map
      (fun d => (d.nodes.length, d.edges.length)) = some (2, 1) ∧
    (generateFromCodePosition idEnv cycleWorld (some "ws") [cycleItemA] 2
        .callers emptyGenState).2.toOption.map
      (fun d => (d.nodes.length, d.edges.length)) = some (2, 1) ∧
    (generateFromCodePosition idEnv cycleWorld (some "ws") [cycleItemA] 2
        .callees emptyGenState).2.toOption.map
      (fun d => (d.nodes.length, d.edges.length)) = some (1, 0) := by
  exact ⟨by decide, by decide, by decide⟩

/-! ## C5: visited items are skipped entirely; the node map stays duplicate-free -/

theorem mapSet_keys :
    ∀ (m : List (String × GraphNode)) (k : String) (v : GraphNode),
      (mapSet m k v).map Prod.fst =
        if k ∈ m.map Prod.fst then m.map Prod.fst
        else m.map Prod.fst ++ [k]
  | [], k, v => by simp [mapSet]
  | (k', v') :: rest, k, v => by
    by_cases hk : (k' == k) = true
    · have hkk : k' = k := by simpa using hk
      subst hkk
      simp [mapSet, hk]
    · have hkk : k ≠ k' := fun h => hk (by simp [h])
      rw [show mapSet ((k', v') :: rest) k v = (k', v') :: mapSet rest k v by
        simp [mapSet, hk]]
      rw [List.map_cons, mapSet_keys rest k v, List.map_cons]
      by_cases hm : k ∈ rest.map Prod.fst
      · simp [hm, hkk]
      · simp [hm, hkk]

theorem mapSet_mem_keys (m : List (String × GraphNode)) (k : String)
    (v : GraphNode) : k ∈ (mapSet m k v).map Prod.fst := by
  rw [mapSet_keys]
  by_cases h : k ∈ m.map Prod.fst <;> simp [h]

theorem mapSet_keys_mono (m : List (String × GraphNode)) (k : String)
    (v : GraphNode) (x : String) (h : x ∈ m.map Prod.fst) :
    x ∈ (mapSet m k v).map Prod.fst := by
  rw [mapSet_keys]
  by_cases hk : k ∈ m.map Prod.fst <;> simp [hk, h]

theorem mapSet_keys_nodup (m : List (String × GraphNode)) (k : String)
    (v : GraphNode) (h : (m.map Prod.fst).Nodup) :
    ((mapSet m k v).map Prod.fst).Nodup := by
  rw [mapSet_keys]
  by_cases hm : k ∈ m.map Prod.fst
  · simpa [hm]
  · simp only [hm, if_false]
    rw [List.nodup_append]
    refine ⟨h, List.nodup_singleton _, ?_⟩
    intro a ha hb
    simp only [List.mem_singleton] at hb
    subst hb
    exact hm ha

theorem processCallersList_keys_nodup (env : GenEnv) :
    ∀ (l : CHNList) (parentId : String) (st : GenState),
      (st.nodeMap.map Prod.fst).Nodup →
      ((processCallersList env l parentId st).nodeMap.map Prod.fst).Nodup
  | .nil, _, _, h => h
  | .cons (.mk nm u rl rc dt sr im ccallers ccallees) rest, parentId, st, h => by
    rw [processCallersList]
    by_cases hv : st.visited.contains
        (generateNodeId env (.mk nm u rl rc dt sr im ccallers ccallees)) = true
    · rw [if_pos hv]
      exact processCallersList_keys_nodup env rest parentId st h
    · rw [if_neg hv]
      refine processCallersList_keys_nodup env rest parentId _ ?_
      exact processCallersList_keys_nodup env ccallers _ _
        (mapSet_keys_nodup _ _ _ h)

theorem processCalleesList_keys_nodup (env : GenEnv) :
    ∀ (l : CHNList) (parentId : String) (st : GenState),
      (st.nodeMap.map Prod.fst).Nodup →
      ((processCalleesList env l parentId st).nodeMap.map Prod.fst).Nodup
  | .nil, _, _, h => h
  | .cons (.mk nm u rl rc dt sr im ccallers ccallees) rest, parentId, st, h => by
    rw [processCalleesList]
    by_cases hv : st.visited.contains
        (generateNodeId env (.mk nm u rl rc dt sr im ccallers ccallees)) = true
    · rw [if_pos hv]
      exact processCalleesList_keys_nodup env rest parentId st h
    · rw [if_neg hv]
      refine processCalleesList_keys_nodup env rest parentId _ ?_
      exact processCalleesList_keys_nodup env ccallees _ _
        (mapSet_keys_nodup _ _ _ h)

theorem processCallersList_keys_mono (env : GenEnv) :
    ∀ (l : CHNList) (parentId : String) (st : GenState) (x : String),
      x ∈ st.nodeMap.map Prod.fst →
      x ∈ (processCallersList env l parentId st).nodeMap.map Prod.fst
  | .nil, _, _, _, h => h
  | .cons (.mk nm u rl rc dt sr im ccallers ccallees) rest, parentId, st, x, h => by
    rw [processCallersList]
    by_cases hv : st.visited.contains
        (generateNodeId env (.mk nm u rl rc dt sr im ccallers ccallees)) = true
    · rw [if_pos hv]
      exact processCallersList_keys_mono env rest parentId st x h
    · rw [if_neg hv]
      refine processCallersList_keys_mono env rest parentId _ x ?_
      exact processCallersList_keys_mono env ccallers _ _ x
        (mapSet_keys_mono _ _ _ _ h)

theorem processCalleesList_keys_mono (env : GenEnv) :
    ∀ (l : CHNList) (parentId : String) (st : GenState) (x : String),
      x ∈ st.nodeMap.map Prod.fst →
      x ∈ (processCalleesList env l parentId st).nodeMap.map Prod.fst
  | .nil, _, _, _, h => h
  | .cons (.mk nm u rl rc dt sr im ccallers ccallees) rest, parentId, st, x, h => by
    rw [processCalleesList]
    by_cases hv : st.visited.contains
        (generateNodeId env (.mk nm u rl rc dt sr im ccallers ccallees)) = true
    · rw [if_pos hv]
      exact processCalleesList_keys_mono env rest parentId st x h
    · rw [if_neg hv]
      refine processCalleesList_keys_mono env rest parentId _ x ?_
      exact processCalleesList_keys_mono env ccallees _ _ x
        (mapSet_keys_mono _ _ _ _ h)

/-- C5 counterexample: `C` is a callee of both the root `A` and of `B`;
after being visited under `B`, its second encounter (as callee of `A`)
adds **no** edge: the final edges are `A→B` and `B→C` only, and no `A→C`
edge exists, contrary to the claim that an edge is still added. -/
theorem processCallees_revisit_no_edge_counterexample :
    (processCallees idEnv dupCalleeRoot "u:1:0:A"
      ⟨[("u:1:0:A", createNode idEnv dupCalleeRoot)], [], []⟩).edges =
      [⟨"u:1:0:A", "u:2:0:B"⟩, ⟨"u:2:0:B", "u:3:0:C"⟩] ∧
    GraphEdge.mk "u:1:0:A" "u:3:0:C" ∉
      (processCallees idEnv dupCalleeRoot "u:1:0:A"
        ⟨[("u:1:0:A", createNode idEnv dupCalleeRoot)], [], []⟩).edges := by
  exact ⟨by decide, by decide⟩

/-- C5 amended: a not-yet-visited item is converted and inserted into the
node map (and the map's keys stay pairwise distinct, so it is converted
exactly once), while an already-visited item is skipped entirely — its
processing step changes nothing: neither a duplicate node nor an edge is
added. -/
theorem processVisited_skip_and_unique :
    (∀ (env : GenEnv) (caller : CallHierarchyNode) (rest : CHNList)
       (parentId : String) (st : GenState),
       st.visited.contains (generateNodeId env caller) = true →
       processCallersList env (.cons caller rest) parentId st =
         processCallersList env rest parentId st) ∧
    (∀ (env : GenEnv) (callee : CallHierarchyNode) (rest : CHNList)
       (parentId : String) (st : GenState),
       st.visited.contains (generateNodeId env callee) = true →
       processCalleesList env (.cons callee rest) parentId st =
         processCalleesList env rest parentId st) ∧
    (∀ (env : GenEnv) (l : CHNList) (parentId : String) (st : GenState),
       (st.nodeMap.map Prod.fst).Nodup →
       ((processCallersList env l parentId st).nodeMap.map Prod.fst).Nodup) ∧
    (∀ (env : GenEnv) (l : CHNList) (parentId : String) (st : GenState),
       (st.nodeMap.map Prod.fst).Nodup →
       ((processCalleesList env l parentId st).nodeMap.map Prod.fst).Nodup) ∧
    (∀ (env : GenEnv) (caller : CallHierarchyNode) (rest : CHNList)
       (parentId : String) (st : GenState),
       st.visited.contains (generateNodeId env caller) = false →
       generateNodeId env caller ∈
         (processCallersList env (.cons caller rest) parentId
           st).nodeMap.map Prod.fst) ∧
    (∀ (env : GenEnv) (callee : CallHierarchyNode) (rest : CHNList)
       (parentId : String) (st : GenState),
       st.visited.contains (generateNodeId env callee) = false →
       generateNodeId env callee ∈
         (processCalleesList env (.cons callee rest) parentId
           st).nodeMap.map Prod.fst) := by
  refine ⟨?_, ?_, processCallersList_keys_nodup, processCalleesList_keys_nodup,
    ?_, ?_⟩
  · intro env caller rest parentId st h
    rw [processCallersList]
    rw [if_pos h]
  · intro env callee rest parentId st h
    rw [processCalleesList]
    rw [if_pos h]
  · intro env caller rest parentId st h
    rw [processCallersList]
    rw [if_neg (by simpa using h)]
    apply processCallersList_keys_mono
    cases caller with
    | mk nm u rl rc dt sr im ccallers ccallees =>
      exact processCallersList_keys_mono env ccallers _ _ _
        (mapSet_mem_keys _ _ _)
  · intro env callee rest parentId st h
    rw [processCalleesList]
    rw [if_neg (by simpa using h)]
    apply processCalleesList_keys_mono
    cases callee with
    | mk nm u rl rc dt sr im ccallers ccallees =>
      exact processCalleesList_keys_mono env ccallees _ _ _
        (mapSet_mem_keys _ _ _)

/-- Witness for C5: concrete skip, uniqueness and insertion instances on
the duplicate-callee scenario. -/
theorem processVisited_skip_and_unique_witness :
    processCallersList idEnv (.cons dupCalleeC .nil) "p"
        ⟨[], [], ["u:3:0:C"]⟩ =
      processCallersList idEnv .nil "p" ⟨[], [], ["u:3:0:C"]⟩ ∧
    processCalleesList idEnv (.cons dupCalleeC .nil) "p"
        ⟨[], [], ["u:3:0:C"]⟩ =
      processCalleesList idEnv .nil "p" ⟨[], [], ["u:3:0:C"]⟩ ∧
    ((processCallersList idEnv (.cons dupCalleeB .nil) "p"
        emptyGenState).nodeMap.map Prod.fst).Nodup ∧
    ((processCalleesList idEnv (.cons dupCalleeB .nil) "p"
        emptyGenState).nodeMap.map Prod.fst).Nodup ∧
    "u:3:0:C" ∈ (processCallersList idEnv (.cons dupCalleeC .nil) "p"
        emptyGenState).nodeMap.map Prod.fst ∧
    "u:3:0:C" ∈ (processCalleesList idEnv (.cons dupCalleeC .nil) "p"
        emptyGenState).nodeMap.map Prod.fst :=
  ⟨processVisited_skip_and_unique.1 idEnv dupCalleeC .nil "p"
     ⟨[], [], ["u:3:0:C"]⟩ (by decide),
   processVisited_skip_and_unique.2.1 idEnv dupCalleeC .nil "p"
     ⟨[], [], ["u:3:0:C"]⟩ (by decide),
   processVisited_skip_and_unique.2.2.1 idEnv (.cons dupCalleeB .nil) "p"
     emptyGenState (by decide),
   processVisited_skip_and_unique.2.2.2.1 idEnv (.cons dupCalleeB .nil) "p"
     emptyGenState (by decide),
   processVisited_skip_and_unique.2.2.2.2.1 idEnv dupCalleeC .nil "p"
     emptyGenState (by decide),
   processVisited_skip_and_unique.2.2.2.2.2 idEnv dupCalleeC .nil "p"
     emptyGenState (by decide)⟩

end CallGraphEditor
